import Mathlib

/-!
Verification of the mutual-debt simplification algorithm
(`src/mutual_debt_simplification.py`).

Participants are drawn from a linearly ordered identifier type `ι`
(the source uses strings with lexicographic order; all results are
generic in the order).  Amounts are drawn from a linearly ordered
additive commutative group `R`: the source operates on Python numbers
and the specification stipulates exact arithmetic, so `R = ℚ` is the
intended instance; the algorithm only ever adds, subtracts, negates,
takes `min` and compares, so every theorem is proved for the general
class.  Concrete evaluations instantiate `ι = ℕ`, `R = ℤ`.
-/

set_option linter.unusedSectionVars false
set_option linter.unusedVariables false

namespace MutualDebt

variable {ι : Type} [LinearOrder ι] {R : Type} [LinearOrderedAddCommGroup R]

/-- Modelled from the spec: `data_structures.Graph` (file
`data_structures.py` is imported by the source but absent from `src/`).
Per spec §3/§4.1 the graph is built empty and mutated only by `edge`,
which accumulates weights for repeated ordered pairs; we record the raw
insertion-ordered edge list, from which the accessors below recompute
the forward and reverse accumulated views. -/
structure Graph (ι R : Type) where
  edges : List (ι × ι × R)
deriving DecidableEq

/-- Modelled from the spec: a `Graph` is "constructed empty". -/
def Graph.empty : Graph ι R := ⟨[]⟩

/-- Modelled from the spec: `add_edge` accumulates the amount onto the
ordered pair (spec §4.1); recorded here by appending to the edge list,
the accessors doing the accumulation. -/
def Graph.edge (g : Graph ι R) (a b : ι) (v : R) : Graph ι R :=
  ⟨g.edges ++ [(a, b, v)]⟩

/-- Modelled from the spec: `participants()` yields "every participant
that appears as a source of at least one outgoing or incoming edge"
(spec §4.1), i.e. every endpoint, each once (first-appearance order;
the spec imposes no ordering). -/
def Graph.participants (g : Graph ι R) : List ι :=
  (g.edges.flatMap fun e => [e.1, e.2.1]).dedup

/-- Modelled from the spec: `outgoing_edges(p)` produces the
`(other_participant, weight)` pairs for `p` with accumulated weights
(spec §4.1, §3 invariant "adding an edge between the same ordered pair
twice accumulates the weight"). -/
def Graph.get_node_edges (g : Graph ι R) (p : ι) : List (ι × R) :=
  (((g.edges.filter fun e => e.1 = p).map fun e => e.2.1).dedup).map fun b =>
    (b, (((g.edges.filter fun e => e.1 = p).filter fun e => e.2.1 = b).map
      fun e => e.2.2).sum)

/-- Modelled from the spec: `incoming_edges(p)`, the mirrored reverse
index of `get_node_edges` (spec §3, §4.1). -/
def Graph.get_node_reverse_edges (g : Graph ι R) (p : ι) : List (ι × R) :=
  (((g.edges.filter fun e => e.2.1 = p).map fun e => e.1).dedup).map fun a =>
    (a, (((g.edges.filter fun e => e.2.1 = p).filter fun e => e.1 = a).map
      fun e => e.2.2).sum)

/-- The net amount participant `p` owes: sum of outgoing edge values
minus sum of incoming edge values (the local `total_owed` of
`collectors_and_debtors`, src lines 43-44). -/
def Graph.total_owed (g : Graph ι R) (p : ι) : R :=
  ((g.get_node_edges p).map Prod.snd).sum
    - ((g.get_node_reverse_edges p).map Prod.snd).sum

/-- Association-list model of a Python dict: the key list. -/
def dictKeys (m : List (ι × R)) : List ι := m.map Prod.fst

/-- Association-list model of a Python dict: value lookup
(`m[k]`; defaults to `0` for absent keys, which the algorithm never
queries). -/
def dictGet [Zero R] [DecidableEq ι] : List (ι × R) → ι → R
  | [], _ => 0
  | kv :: t, k => if k = kv.1 then kv.2 else dictGet t k

/-- Association-list model of a Python dict: in-place value assignment
`m[k] = v` on an existing key (keys are never added by the matcher). -/
def dictUpdate [DecidableEq ι] (m : List (ι × R)) (k : ι) (v : R) : List (ι × R) :=
  m.map fun kv => if kv.1 = k then (kv.1, v) else kv

/-- Loop body of `collectors_and_debtors` (src lines 42-49): classify
participant `p` by the sign of its `total_owed`, storing collectors
with the sign inverted; a zero net position is recorded nowhere. -/
def classify_step (g : Graph ι R) (cd : List (ι × R) × List (ι × R)) (p : ι) :
    List (ι × R) × List (ι × R) :=
  let t := g.total_owed p
  if 0 < t then (cd.1, cd.2 ++ [(p, t)])
  else if t < 0 then (cd.1 ++ [(p, -t)], cd.2)
  else cd

/-- `collectors_and_debtors` (src lines 34-51): one pass over the
participants.  Returns `(collectors, debtors)`. -/
def collectors_and_debtors (g : Graph ι R) : List (ι × R) × List (ι × R) :=
  g.participants.foldl (classify_step g) ([], [])

/-- Key traversal order of the outer loop of
`graph_from_collectors_and_debtors`: `sorted(collectors)` (src line 62),
ascending identifier order. -/
def sorted_collector_ids (collectors : List (ι × R)) : List ι :=
  (dictKeys collectors).insertionSort (· ≤ ·)

/-- Key traversal order of the inner loop:
`sorted(debtors, reverse=True)` (src line 63), descending identifier
order.  Reversing a stable ascending sort agrees with Python's
descending sort on key lists, where duplicate keys are equal
elements. -/
def sorted_debtor_ids (debtors : List (ι × R)) : List ι :=
  ((dictKeys debtors).insertionSort (· ≤ ·)).reverse

/-- The `(collector, debtor)` pairs visited by the two nested loops of
`graph_from_collectors_and_debtors`, in visiting order. -/
def settle_pairs (collectors debtors : List (ι × R)) : List (ι × ι) :=
  (sorted_collector_ids collectors).flatMap fun c =>
    (sorted_debtor_ids debtors).map fun d => (c, d)

/-- Mutable state of the matching loop: the output graph's edge list
and the current contents of the two dicts being mutated in place. -/
structure MatchState (ι R : Type) where
  edges : List (ι × ι × R)
  collectors : List (ι × R)
  debtors : List (ι × R)
deriving DecidableEq

/-- Loop body of `graph_from_collectors_and_debtors` (src lines 64-75)
for one `(collector, debtor)` pair: when both balances are nonzero,
emit an edge `debtor → collector` of value `min(credit, debt)`; if
`credit >= debt` the source executes `collectors[collector] += debt;
debtors[debtor] = 0`, otherwise `collectors[collector] = 0;
debtors[debtor] -= credit`. -/
def settle_step [DecidableEq ι] (s : MatchState ι R) (cd : ι × ι) : MatchState ι R :=
  let credit := dictGet s.collectors cd.1
  let debt := dictGet s.debtors cd.2
  if credit ≠ 0 ∧ debt ≠ 0 then
    if debt ≤ credit then
      { edges := s.edges ++ [(cd.2, cd.1, min credit debt)],
        collectors := dictUpdate s.collectors cd.1 (credit + debt),
        debtors := dictUpdate s.debtors cd.2 0 }
    else
      { edges := s.edges ++ [(cd.2, cd.1, min credit debt)],
        collectors := dictUpdate s.collectors cd.1 0,
        debtors := dictUpdate s.debtors cd.2 (debt - credit) }
  else s

/-- `graph_from_collectors_and_debtors` (src lines 54-77).  The first
component is the returned graph; the second and third components are
the final contents of the `collectors` and `debtors` dicts, which the
source mutates in place, so they are the caller-visible state of the
arguments after the call. -/
def graph_from_collectors_and_debtors (collectors debtors : List (ι × R)) :
    Graph ι R × List (ι × R) × List (ι × R) :=
  let s := (settle_pairs collectors debtors).foldl settle_step
    ⟨[], collectors, debtors⟩
  (⟨s.edges⟩, s.collectors, s.debtors)

/-- `simplify_debt_graph` (src lines 24-31). -/
def simplify_debt_graph (g : Graph ι R) : Graph ι R :=
  (graph_from_collectors_and_debtors
    (collectors_and_debtors g).1 (collectors_and_debtors g).2).1

/-- Python dict lookup `name_translation[x]` for the ingestion step:
`none` models the `KeyError` raised on a missing key. -/
def lookupName [DecidableEq ι] : List (ι × ι) → ι → Option ι
  | [], _ => none
  | kv :: t, k => if k = kv.1 then some kv.2 else lookupName t k

/-- The per-identifier translation of `debt_list_to_graph` (src lines
14-15): `name_translation[x] if name_translation else x`.  `none`
models passing `None`, `some []` an empty dict; both are falsy in
Python, so the identifier is used verbatim. -/
def translateName [DecidableEq ι] (nt : Option (List (ι × ι))) (x : ι) : Option ι :=
  match nt with
  | none => some x
  | some m => if m = [] then some x else lookupName m x

/-- Loop of `debt_list_to_graph` (src lines 12-20): add each record's
edge, translating both endpoints; a failed lookup aborts with `none`. -/
def debt_list_to_graph_go [DecidableEq ι] (nt : Option (List (ι × ι))) :
    Graph ι R → List (ι × ι × R) → Option (Graph ι R)
  | g, [] => some g
  | g, rcd :: t =>
    match translateName nt rcd.1, translateName nt rcd.2.1 with
    | some debtor, some collector =>
      debt_list_to_graph_go nt (g.edge debtor collector rcd.2.2) t
    | _, _ => none

/-- `debt_list_to_graph` (src lines 5-20). -/
def debt_list_to_graph [DecidableEq ι] (debt_list : List (ι × ι × R))
    (name_translation : Option (List (ι × ι))) : Option (Graph ι R) :=
  debt_list_to_graph_go name_translation Graph.empty debt_list

/-- Total of a dict's values, `sum(m.values())`. -/
def sumValues (m : List (ι × R)) : R := (m.map Prod.snd).sum

/-! ### Association-list (dict) lemmas -/

@[simp] lemma dictKeys_nil : dictKeys ([] : List (ι × R)) = [] := rfl

@[simp] lemma dictKeys_cons (kv : ι × R) (t : List (ι × R)) :
    dictKeys (kv :: t) = kv.1 :: dictKeys t := rfl

@[simp] lemma dictKeys_length (m : List (ι × R)) :
    (dictKeys m).length = m.length := List.length_map m Prod.fst

lemma mem_dictKeys {m : List (ι × R)} {k : ι} :
    k ∈ dictKeys m ↔ ∃ v, (k, v) ∈ m := by
  constructor
  · intro h
    rcases List.mem_map.mp h with ⟨kv, hkv, hk⟩
    exact ⟨kv.2, by rwa [← hk, Prod.mk.eta]⟩
  · rintro ⟨v, hv⟩
    exact List.mem_map_of_mem Prod.fst hv

lemma dictKeys_dictUpdate (m : List (ι × R)) (k : ι) (v : R) :
    dictKeys (dictUpdate m k v) = dictKeys m := by
  unfold dictKeys dictUpdate
  rw [List.map_map]
  apply List.map_congr_left
  intro kv _
  by_cases h : kv.1 = k <;> simp [h]

lemma dictUpdate_cons (kv : ι × R) (t : List (ι × R)) (k : ι) (v : R) :
    dictUpdate (kv :: t) k v
      = (if kv.1 = k then (kv.1, v) else kv) :: dictUpdate t k v := rfl

lemma dictGet_dictUpdate (m : List (ι × R)) (k x : ι) (v : R) :
    dictGet (dictUpdate m k v) x
      = if x = k ∧ k ∈ dictKeys m then v else dictGet m x := by
  induction m with
  | nil => simp [dictUpdate, dictGet]
  | cons kv t ih =>
    rw [dictUpdate_cons]
    by_cases h1 : kv.1 = k
    · rw [if_pos h1]
      by_cases h2 : x = kv.1
      · have hxk : x = k := h2.trans h1
        simp [dictGet, h2, hxk, h1]
      · have hxk : ¬ x = k := fun e => h2 (e.trans h1.symm)
        simp [dictGet, h2, hxk, ih]
    · rw [if_neg h1]
      by_cases h2 : x = kv.1
      · have hc : ¬ (x = k ∧ k ∈ dictKeys (kv :: t)) :=
          fun hpair => h1 (h2.symm.trans hpair.1)
        simp [dictGet, h2, hc, h1]
      · have hcond : (x = k ∧ k ∈ dictKeys (kv :: t)) ↔ (x = k ∧ k ∈ dictKeys t) := by
          constructor
          · rintro ⟨e, hm⟩
            refine ⟨e, ?_⟩
            rcases List.mem_cons.mp (by simpa using hm) with h' | h'
            · exact absurd h'.symm h1
            · exact h'
          · rintro ⟨e, hm⟩
            exact ⟨e, by simp [hm]⟩
        simp only [dictGet, if_neg h2]
        rw [ih]
        simp only [hcond]

lemma dictGet_eq_of_mem {m : List (ι × R)} (hnd : (dictKeys m).Nodup)
    {k : ι} {v : R} (h : (k, v) ∈ m) : dictGet m k = v := by
  induction m with
  | nil => cases h
  | cons kv t ih =>
    rcases List.mem_cons.mp h with h | h
    · cases h
      simp [dictGet]
    · have hk : k ∈ dictKeys t := mem_dictKeys.mpr ⟨v, h⟩
      have hne : k ≠ kv.1 := by
        intro e
        exact (List.nodup_cons.mp hnd).1 (e ▸ hk)
      rw [dictGet, if_neg hne]
      exact ih (List.nodup_cons.mp hnd).2 h

lemma dictGet_eq_zero_of_not_mem {m : List (ι × R)} {k : ι}
    (h : k ∉ dictKeys m) : dictGet m k = 0 := by
  induction m with
  | nil => rfl
  | cons kv t ih =>
    have h1 : k ≠ kv.1 := fun e => h (by simp [e])
    rw [dictGet, if_neg h1]
    exact ih (fun hm => h (by simp [hm]))

lemma dictGet_pos {m : List (ι × R)} (hpos : ∀ kv ∈ m, 0 < kv.2) {k : ι}
    (hk : k ∈ dictKeys m) : 0 < dictGet m k := by
  induction m with
  | nil => simp at hk
  | cons kv t ih =>
    by_cases h : k = kv.1
    · simpa [dictGet, h] using hpos kv (List.mem_cons_self kv t)
    · rw [dictGet, if_neg h]
      refine ih (fun kv' hkv' => hpos kv' (List.mem_cons_of_mem _ hkv')) ?_
      rcases List.mem_cons.mp hk with h' | h'
      · exact absurd h' h
      · exact h'

lemma dictGet_nonneg {m : List (ι × R)} (hpos : ∀ kv ∈ m, 0 < kv.2) (k : ι) :
    0 ≤ dictGet m k := by
  by_cases hk : k ∈ dictKeys m
  · exact le_of_lt (dictGet_pos hpos hk)
  · rw [dictGet_eq_zero_of_not_mem hk]

lemma dictGet_perm {m₁ m₂ : List (ι × R)} (h : m₁.Perm m₂)
    (hnd : (dictKeys m₁).Nodup) (k : ι) : dictGet m₁ k = dictGet m₂ k := by
  have hnd₂ : (dictKeys m₂).Nodup := ((h.map Prod.fst).nodup_iff).mp hnd
  by_cases hk : k ∈ dictKeys m₁
  · rcases mem_dictKeys.mp hk with ⟨v, hv⟩
    rw [dictGet_eq_of_mem hnd hv, dictGet_eq_of_mem hnd₂ (h.mem_iff.mp hv)]
  · have hk₂ : k ∉ dictKeys m₂ := fun h2 => by
      rcases mem_dictKeys.mp h2 with ⟨v, hv⟩
      exact hk (mem_dictKeys.mpr ⟨v, h.mem_iff.mpr hv⟩)
    rw [dictGet_eq_zero_of_not_mem hk, dictGet_eq_zero_of_not_mem hk₂]

/-! ### Fold invariance lemmas -/

lemma foldl_induction {σ β : Type} (f : σ → β → σ) (Q : σ → Prop)
    (l : List β) (s : σ) (hs : Q s)
    (hstep : ∀ s' b, b ∈ l → Q s' → Q (f s' b)) : Q (l.foldl f s) := by
  induction l generalizing s with
  | nil => exact hs
  | cons b t ih =>
    exact ih (f s b) (hstep s b (List.mem_cons_self b t) hs)
      (fun s' b' hb' hq => hstep s' b' (List.mem_cons_of_mem _ hb') hq)

lemma foldl_rel {σ τ β : Type} (f : σ → β → σ) (g : τ → β → τ)
    (Rel : σ → τ → Prop) (l : List β) (s : σ) (t : τ) (hst : Rel s t)
    (hstep : ∀ s' t' b, b ∈ l → Rel s' t' → Rel (f s' b) (g t' b)) :
    Rel (l.foldl f s) (l.foldl g t) := by
  induction l generalizing s t with
  | nil => exact hst
  | cons b l' ih =>
    exact ih (f s b) (g t b) (hstep s t b (List.mem_cons_self b l') hst)
      (fun s' t' b' hb' hr => hstep s' t' b' (List.mem_cons_of_mem _ hb') hr)

/-! ### List-sum lemmas -/

lemma sum_map_zero {β : Type} (K : List β) : (K.map fun _ => (0:R)).sum = 0 := by
  induction K <;> simp [*]

lemma sum_map_add {β : Type} (K : List β) (f g : β → R) :
    (K.map fun x => f x + g x).sum = (K.map f).sum + (K.map g).sum := by
  induction K with
  | nil => simp
  | cons b t ih =>
    simp only [List.map_cons, List.sum_cons, ih]
    abel

lemma sum_map_neg {β : Type} (K : List β) (f : β → R) :
    (K.map fun x => -(f x)).sum = -((K.map f).sum) := by
  induction K with
  | nil => simp
  | cons b t ih =>
    simp only [List.map_cons, List.sum_cons, ih]
    abel

lemma sum_map_sub {β : Type} (K : List β) (f g : β → R) :
    (K.map fun x => f x - g x).sum = (K.map f).sum - (K.map g).sum := by
  induction K with
  | nil => simp
  | cons b t ih =>
    simp only [List.map_cons, List.sum_cons, ih]
    abel

lemma sum_ite_key (K : List ι) (hK : K.Nodup) {k : ι} (hk : k ∈ K) (v : R) :
    (K.map fun x => if k = x then v else 0).sum = v := by
  induction K with
  | nil => cases hk
  | cons a t ih =>
    rcases List.nodup_cons.mp hK with ⟨ha, ht⟩
    rcases List.mem_cons.mp hk with h | h
    · subst h
      have hzero : ∀ x ∈ t, (if k = x then v else 0) = (fun _ => (0:R)) x :=
        fun x hx => if_neg (fun e => ha (by rw [e]; exact hx))
      simp [List.map_congr_left hzero, sum_map_zero]
    · have hne : k ≠ a := fun e => ha (by rw [← e]; exact h)
      simp [hne, ih ht h]

lemma sum_fiber {β : Type} (l : List β) (key : β → ι) (val : β → R) :
    ∀ K : List ι, K.Nodup → (∀ e ∈ l, key e ∈ K) →
      (K.map fun x => ((l.filter fun e => key e = x).map val).sum).sum
        = (l.map val).sum := by
  induction l with
  | nil => intro K _ _; simp [sum_map_zero]
  | cons e t ih =>
    intro K hK hsub
    have h1 : ∀ x ∈ K, (((e :: t).filter fun e' => key e' = x).map val).sum
        = (if key e = x then val e else 0)
          + ((t.filter fun e' => key e' = x).map val).sum := by
      intro x _
      by_cases h : key e = x <;> simp [List.filter_cons, h]
    rw [List.map_congr_left h1, sum_map_add,
      sum_ite_key K hK (hsub e (List.mem_cons_self e t)) (val e),
      ih K hK (fun x hx => hsub x (List.mem_cons_of_mem _ hx))]
    simp

lemma sum_split (K : List ι) (f : ι → R) :
    ((K.filter fun p => 0 < f p).map f).sum
      + ((K.filter fun p => f p < 0).map f).sum = (K.map f).sum := by
  induction K with
  | nil => simp
  | cons a t ih =>
    rcases lt_trichotomy (f a) 0 with h | h | h
    · rw [List.filter_cons, List.filter_cons, if_neg (by simp [not_lt.mpr (le_of_lt h)]),
        if_pos (by simp [h]), List.map_cons, List.sum_cons, List.map_cons, List.sum_cons,
        ← ih]
      abel
    · rw [List.filter_cons, List.filter_cons, if_neg (by simp [h]),
        if_neg (by simp [h]), List.map_cons, List.sum_cons, ← ih, h]
      abel
    · rw [List.filter_cons, List.filter_cons, if_pos (by simp [h]),
        if_neg (by simp [not_lt.mpr (le_of_lt h)]), List.map_cons, List.sum_cons,
        List.map_cons, List.sum_cons, ← ih]
      abel

/-! ### Graph and resolver lemmas -/

lemma participants_nodup (g : Graph ι R) : g.participants.Nodup :=
  List.nodup_dedup _

lemma src_mem_participants (g : Graph ι R) {e : ι × ι × R} (he : e ∈ g.edges) :
    e.1 ∈ g.participants := by
  unfold Graph.participants
  rw [List.mem_dedup]
  exact List.mem_flatMap.mpr ⟨e, he, by simp⟩

lemma tgt_mem_participants (g : Graph ι R) {e : ι × ι × R} (he : e ∈ g.edges) :
    e.2.1 ∈ g.participants := by
  unfold Graph.participants
  rw [List.mem_dedup]
  exact List.mem_flatMap.mpr ⟨e, he, by simp⟩

lemma outflow_eq (g : Graph ι R) (p : ι) :
    ((g.get_node_edges p).map Prod.snd).sum
      = ((g.edges.filter fun e => e.1 = p).map fun e => e.2.2).sum := by
  unfold Graph.get_node_edges
  rw [List.map_map]
  exact sum_fiber (g.edges.filter fun e => e.1 = p) (fun e => e.2.1)
    (fun e => e.2.2) _ (List.nodup_dedup _)
    (fun e he => List.mem_dedup.mpr (List.mem_map_of_mem (fun e => e.2.1) he))

lemma inflow_eq (g : Graph ι R) (p : ι) :
    ((g.get_node_reverse_edges p).map Prod.snd).sum
      = ((g.edges.filter fun e => e.2.1 = p).map fun e => e.2.2).sum := by
  unfold Graph.get_node_reverse_edges
  rw [List.map_map]
  exact sum_fiber (g.edges.filter fun e => e.2.1 = p) (fun e => e.1)
    (fun e => e.2.2) _ (List.nodup_dedup _)
    (fun e he => List.mem_dedup.mpr (List.mem_map_of_mem (fun e => e.1) he))

lemma sum_participants_total_owed (g : Graph ι R) :
    (g.participants.map fun p => g.total_owed p).sum = 0 := by
  unfold Graph.total_owed
  rw [sum_map_sub]
  have hout : (g.participants.map fun p => ((g.get_node_edges p).map Prod.snd).sum).sum
      = (g.edges.map fun e => e.2.2).sum := by
    rw [List.map_congr_left (fun p _ => outflow_eq g p)]
    exact sum_fiber g.edges (fun e => e.1) (fun e => e.2.2) g.participants
      (participants_nodup g) (fun e he => src_mem_participants g he)
  have hin : (g.participants.map fun p => ((g.get_node_reverse_edges p).map Prod.snd).sum).sum
      = (g.edges.map fun e => e.2.2).sum := by
    rw [List.map_congr_left (fun p _ => inflow_eq g p)]
    exact sum_fiber g.edges (fun e => e.2.1) (fun e => e.2.2) g.participants
      (participants_nodup g) (fun e he => tgt_mem_participants g he)
  rw [hout, hin, sub_self]

lemma cad_foldl (g : Graph ι R) (P : List ι) :
    ∀ a b : List (ι × R),
      P.foldl (classify_step g) (a, b)
        = (a ++ (P.filter fun p => g.total_owed p < 0).map (fun p => (p, -(g.total_owed p))),
           b ++ (P.filter fun p => 0 < g.total_owed p).map (fun p => (p, g.total_owed p))) := by
  induction P with
  | nil => intro a b; simp
  | cons p t ih =>
    intro a b
    rcases lt_trichotomy (g.total_owed p) 0 with h | h | h
    · rw [List.foldl_cons]
      have hstep : classify_step g (a, b) p = (a ++ [(p, -(g.total_owed p))], b) := by
        unfold classify_step
        rw [if_neg (not_lt.mpr (le_of_lt h)), if_pos h]
      rw [hstep, ih, List.filter_cons, List.filter_cons,
        if_pos (by simpa using h), if_neg (by simpa using not_lt.mpr (le_of_lt h))]
      simp
    · rw [List.foldl_cons]
      have hstep : classify_step g (a, b) p = (a, b) := by
        unfold classify_step
        rw [if_neg (by rw [h]; exact lt_irrefl 0), if_neg (by rw [h]; exact lt_irrefl 0)]
      rw [hstep, ih, List.filter_cons, List.filter_cons,
        if_neg (by simp [h]), if_neg (by simp [h])]
    · rw [List.foldl_cons]
      have hstep : classify_step g (a, b) p = (a, b ++ [(p, g.total_owed p)]) := by
        unfold classify_step
        rw [if_pos h]
      rw [hstep, ih, List.filter_cons, List.filter_cons,
        if_neg (by simpa using not_lt.mpr (le_of_lt h)), if_pos (by simpa using h)]
      simp

lemma cad_eq (g : Graph ι R) :
    collectors_and_debtors g
      = ((g.participants.filter fun p => g.total_owed p < 0).map
           (fun p => (p, -(g.total_owed p))),
         (g.participants.filter fun p => 0 < g.total_owed p).map
           (fun p => (p, g.total_owed p))) := by
  unfold collectors_and_debtors
  rw [cad_foldl g g.participants [] []]
  simp

lemma mem_cad_collectors {g : Graph ι R} {p : ι} {v : R} :
    (p, v) ∈ (collectors_and_debtors g).1
      ↔ p ∈ g.participants ∧ g.total_owed p < 0 ∧ v = -(g.total_owed p) := by
  rw [cad_eq]
  simp only [List.mem_map, List.mem_filter]
  constructor
  · rintro ⟨q, ⟨hq, hneg⟩, heq⟩
    cases heq
    exact ⟨hq, by simpa using hneg, rfl⟩
  · rintro ⟨hp, hneg, rfl⟩
    exact ⟨p, ⟨hp, by simpa using hneg⟩, rfl⟩

lemma mem_cad_debtors {g : Graph ι R} {p : ι} {v : R} :
    (p, v) ∈ (collectors_and_debtors g).2
      ↔ p ∈ g.participants ∧ 0 < g.total_owed p ∧ v = g.total_owed p := by
  rw [cad_eq]
  simp only [List.mem_map, List.mem_filter]
  constructor
  · rintro ⟨q, ⟨hq, hpos⟩, heq⟩
    cases heq
    exact ⟨hq, by simpa using hpos, rfl⟩
  · rintro ⟨hp, hpos, rfl⟩
    exact ⟨p, ⟨hp, by simpa using hpos⟩, rfl⟩

lemma mem_cad_collector_keys {g : Graph ι R} {p : ι} :
    p ∈ dictKeys (collectors_and_debtors g).1
      ↔ p ∈ g.participants ∧ g.total_owed p < 0 := by
  rw [mem_dictKeys]
  constructor
  · rintro ⟨v, hv⟩
    rcases mem_cad_collectors.mp hv with ⟨h1, h2, _⟩
    exact ⟨h1, h2⟩
  · rintro ⟨h1, h2⟩
    exact ⟨-(g.total_owed p), mem_cad_collectors.mpr ⟨h1, h2, rfl⟩⟩

lemma mem_cad_debtor_keys {g : Graph ι R} {p : ι} :
    p ∈ dictKeys (collectors_and_debtors g).2
      ↔ p ∈ g.participants ∧ 0 < g.total_owed p := by
  rw [mem_dictKeys]
  constructor
  · rintro ⟨v, hv⟩
    rcases mem_cad_debtors.mp hv with ⟨h1, h2, _⟩
    exact ⟨h1, h2⟩
  · rintro ⟨h1, h2⟩
    exact ⟨g.total_owed p, mem_cad_debtors.mpr ⟨h1, h2, rfl⟩⟩

/-! ### Matcher lemmas -/

lemma settle_step_eq (s : MatchState ι R) (cd : ι × ι) :
    settle_step s cd =
      if dictGet s.collectors cd.1 ≠ 0 ∧ dictGet s.debtors cd.2 ≠ 0 then
        if dictGet s.debtors cd.2 ≤ dictGet s.collectors cd.1 then
          ⟨s.edges ++ [(cd.2, cd.1,
              min (dictGet s.collectors cd.1) (dictGet s.debtors cd.2))],
           dictUpdate s.collectors cd.1
             (dictGet s.collectors cd.1 + dictGet s.debtors cd.2),
           dictUpdate s.debtors cd.2 0⟩
        else
          ⟨s.edges ++ [(cd.2, cd.1,
              min (dictGet s.collectors cd.1) (dictGet s.debtors cd.2))],
           dictUpdate s.collectors cd.1 0,
           dictUpdate s.debtors cd.2
             (dictGet s.debtors cd.2 - dictGet s.collectors cd.1)⟩
      else s := rfl

lemma sorted_collector_ids_perm (m : List (ι × R)) :
    (sorted_collector_ids m).Perm (dictKeys m) :=
  List.perm_insertionSort _ _

lemma sorted_debtor_ids_perm (m : List (ι × R)) :
    (sorted_debtor_ids m).Perm (dictKeys m) :=
  (List.reverse_perm _).trans (List.perm_insertionSort _ _)

lemma mem_sorted_collector_ids {m : List (ι × R)} {c : ι} :
    c ∈ sorted_collector_ids m ↔ c ∈ dictKeys m :=
  (sorted_collector_ids_perm m).mem_iff

lemma mem_sorted_debtor_ids {m : List (ι × R)} {d : ι} :
    d ∈ sorted_debtor_ids m ↔ d ∈ dictKeys m :=
  (sorted_debtor_ids_perm m).mem_iff

lemma mem_settle_pairs {C D : List (ι × R)} {c d : ι} :
    (c, d) ∈ settle_pairs C D ↔ c ∈ dictKeys C ∧ d ∈ dictKeys D := by
  unfold settle_pairs
  rw [List.mem_flatMap]
  constructor
  · rintro ⟨c', hc', hmem⟩
    rcases List.mem_map.mp hmem with ⟨d', hd', heq⟩
    have h1 : c' = c := congrArg Prod.fst heq
    have h2 : d' = d := congrArg Prod.snd heq
    subst h1
    subst h2
    exact ⟨mem_sorted_collector_ids.mp hc', mem_sorted_debtor_ids.mp hd'⟩
  · rintro ⟨hc, hd⟩
    exact ⟨c, mem_sorted_collector_ids.mpr hc,
      List.mem_map.mpr ⟨d, mem_sorted_debtor_ids.mpr hd, rfl⟩⟩

lemma graph_from_edges_shape (C D : List (ι × R)) :
    ∀ e ∈ (graph_from_collectors_and_debtors C D).1.edges,
      e.1 ∈ dictKeys D ∧ e.2.1 ∈ dictKeys C := by
  unfold graph_from_collectors_and_debtors
  refine foldl_induction settle_step
    (fun s : MatchState ι R => ∀ e ∈ s.edges, e.1 ∈ dictKeys D ∧ e.2.1 ∈ dictKeys C)
    (settle_pairs C D) ⟨[], C, D⟩ (fun e he => absurd he (List.not_mem_nil e)) ?_
  intro s cd hcd hQ
  rw [settle_step_eq]
  split_ifs with h1 h2
  · intro e he
    rcases List.mem_append.mp he with he | he
    · exact hQ e he
    · have hpair : (cd.1, cd.2) ∈ settle_pairs C D := by simpa using hcd
      rcases mem_settle_pairs.mp hpair with ⟨hc, hd⟩
      rcases List.mem_singleton.mp he with rfl
      exact ⟨hd, hc⟩
  · intro e he
    rcases List.mem_append.mp he with he | he
    · exact hQ e he
    · have hpair : (cd.1, cd.2) ∈ settle_pairs C D := by simpa using hcd
      rcases mem_settle_pairs.mp hpair with ⟨hc, hd⟩
      rcases List.mem_singleton.mp he with rfl
      exact ⟨hd, hc⟩
  · exact hQ

/-! ### Claim theorems: resolver -/

/-- C2 (confirmed): Conservation.  For every debt graph, the two
mappings returned by `collectors_and_debtors` satisfy
`sum(debtors.values()) == sum(collectors.values())` exactly, under
exact arithmetic. -/
theorem resolver_conservation (g : Graph ι R) :
    sumValues (collectors_and_debtors g).2 = sumValues (collectors_and_debtors g).1 := by
  rw [cad_eq]
  unfold sumValues
  rw [List.map_map, List.map_map]
  have e1 : (Prod.snd ∘ fun p => (p, g.total_owed p)) = fun p => g.total_owed p := rfl
  have e2 : (Prod.snd ∘ fun p => (p, -(g.total_owed p)))
      = fun p => -(g.total_owed p) := rfl
  rw [e1, e2, sum_map_neg]
  have hsum : ((g.participants.filter fun p => 0 < g.total_owed p).map
        fun p => g.total_owed p).sum
      + ((g.participants.filter fun p => g.total_owed p < 0).map
        fun p => g.total_owed p).sum = 0 := by
    rw [sum_split g.participants (fun p => g.total_owed p)]
    exact sum_participants_total_owed g
  exact eq_neg_of_add_eq_zero_left hsum

/-- C7 (confirmed): Net-position mapping invariant.  The debtor and
collector mappings map participants only to strictly positive amounts,
their key sets are disjoint, and a participant with net position
exactly zero appears in neither. -/
theorem resolver_mapping_invariant (g : Graph ι R) (p : ι) (v : R) :
    ((p, v) ∈ (collectors_and_debtors g).2 → 0 < v) ∧
    ((p, v) ∈ (collectors_and_debtors g).1 → 0 < v) ∧
    (p ∈ dictKeys (collectors_and_debtors g).2
      → p ∉ dictKeys (collectors_and_debtors g).1) ∧
    (g.total_owed p = 0
      → p ∉ dictKeys (collectors_and_debtors g).2
        ∧ p ∉ dictKeys (collectors_and_debtors g).1) := by
  refine ⟨?_, ?_, ?_, ?_⟩
  · intro h
    rcases mem_cad_debtors.mp h with ⟨_, hpos, rfl⟩
    exact hpos
  · intro h
    rcases mem_cad_collectors.mp h with ⟨_, hneg, rfl⟩
    exact neg_pos.mpr hneg
  · intro h hc
    rcases mem_cad_debtor_keys.mp h with ⟨_, hpos⟩
    rcases mem_cad_collector_keys.mp hc with ⟨_, hneg⟩
    exact absurd hpos (not_lt.mpr (le_of_lt hneg))
  · intro h0
    constructor
    · intro h
      rcases mem_cad_debtor_keys.mp h with ⟨_, hpos⟩
      rw [h0] at hpos
      exact lt_irrefl 0 hpos
    · intro h
      rcases mem_cad_collector_keys.mp h with ⟨_, hneg⟩
      rw [h0] at hneg
      exact lt_irrefl 0 hneg

/-- Witness for C7 at a concrete one-edge graph. -/
theorem resolver_mapping_invariant_witness :
    ((0:ℕ), (5:ℤ)) ∈ (collectors_and_debtors (⟨[(0, 1, 5)]⟩ : Graph ℕ ℤ)).2
      ∧ (0:ℤ) < 5 :=
  ⟨by decide, (resolver_mapping_invariant (⟨[(0, 1, 5)]⟩ : Graph ℕ ℤ) 0 5).1 (by decide)⟩

/-- C6 (confirmed): No self-settlement.  No edge of the simplified
graph has the same participant as debtor and creditor. -/
theorem no_self_settlement (g : Graph ι R) (e : ι × ι × R)
    (he : e ∈ (simplify_debt_graph g).edges) : e.1 ≠ e.2.1 := by
  unfold simplify_debt_graph at he
  rcases graph_from_edges_shape (collectors_and_debtors g).1
    (collectors_and_debtors g).2 e he with ⟨hd, hc⟩
  rcases mem_cad_debtor_keys.mp hd with ⟨_, hpos⟩
  rcases mem_cad_collector_keys.mp hc with ⟨_, hneg⟩
  intro hcontra
  rw [hcontra] at hpos
  exact absurd hpos (not_lt.mpr (le_of_lt hneg))

/-- Witness for C6 at a concrete one-edge graph. -/
theorem no_self_settlement_witness :
    ((0:ℕ), (1:ℕ), (10:ℤ)) ∈ (simplify_debt_graph (⟨[(0, 1, 10)]⟩ : Graph ℕ ℤ)).edges
      ∧ (0:ℕ) ≠ 1 :=
  ⟨by decide, no_self_settlement (⟨[(0, 1, 10)]⟩ : Graph ℕ ℤ) (0, 1, 10) (by decide)⟩

/-! ### Claim theorems: the `collectors[collector] += debt` slip

`collectors_and_debtors` stores collector credits as positive numbers
(src line 49), but the matcher's settlement branch executes
`collectors[collector] += debt` (src line 71) under a comment claiming
the values are negative (src line 62); for positive credits this
inflates the remaining credit instead of decreasing it. -/

/-- C1 (code_bug): net positions are NOT preserved.  For the graph
with edges 0→2 of 6, 1→2 of 4 and 1→3 of 3, the original net positions
give collector 2 an amount of 10 and collector 3 an amount of 3, but
recomputing net positions on the simplified graph gives collector 2 an
amount of 13 and drops collector 3 entirely. -/
theorem net_positions_not_preserved :
    dictGet (collectors_and_debtors
        (simplify_debt_graph (⟨[(0, 2, 6), (1, 2, 4), (1, 3, 3)]⟩ : Graph ℕ ℤ))).1 2 = 13
    ∧ dictGet (collectors_and_debtors (⟨[(0, 2, 6), (1, 2, 4), (1, 3, 3)]⟩ : Graph ℕ ℤ)).1 2 = 10
    ∧ dictGet (collectors_and_debtors
        (simplify_debt_graph (⟨[(0, 2, 6), (1, 2, 4), (1, 3, 3)]⟩ : Graph ℕ ℤ))).1 3 = 0
    ∧ dictGet (collectors_and_debtors (⟨[(0, 2, 6), (1, 2, 4), (1, 3, 3)]⟩ : Graph ℕ ℤ)).1 3 = 3
    ∧ (3:ℕ) ∈ dictKeys (collectors_and_debtors (⟨[(0, 2, 6), (1, 2, 4), (1, 3, 3)]⟩ : Graph ℕ ℤ)).1
    ∧ (3:ℕ) ∉ dictKeys (collectors_and_debtors
        (simplify_debt_graph (⟨[(0, 2, 6), (1, 2, 4), (1, 3, 3)]⟩ : Graph ℕ ℤ))).1 := by
  decide

/-- C3 (code_bug): the matching loop does NOT drive every tracked
balance to zero.  With collectors `{1: 10}` and debtors `{0: 10}` the
single settlement takes the `credit >= debt` branch and leaves the
collector's tracked value at `10 + 10 = 20`, not `0` (the debtor is
zeroed). -/
theorem remaining_balances_not_zero :
    (graph_from_collectors_and_debtors [((1:ℕ), (10:ℤ))] [(0, 10)]).2.1 = [(1, 20)]
    ∧ (graph_from_collectors_and_debtors [((1:ℕ), (10:ℤ))] [(0, 10)]).2.2 = [(0, 0)]
    ∧ ((20:ℤ) ≠ 0) := by
  decide

/-- C9 (code_bug): simplification is NOT idempotent.  For the graph
with edges 4→1 of 3, 3→1 of 2 and 3→2 of 8, the simplified graph has 3
edges, but simplifying it again yields 2 edges and different net
positions (collector 2 receives 2 in the first output and 0 in the
second). -/
theorem simplify_not_idempotent :
    (simplify_debt_graph (⟨[(4, 1, 3), (3, 1, 2), (3, 2, 8)]⟩ : Graph ℕ ℤ)).edges.length = 3
    ∧ (simplify_debt_graph (simplify_debt_graph
        (⟨[(4, 1, 3), (3, 1, 2), (3, 2, 8)]⟩ : Graph ℕ ℤ))).edges.length = 2
    ∧ dictGet (collectors_and_debtors
        (simplify_debt_graph (⟨[(4, 1, 3), (3, 1, 2), (3, 2, 8)]⟩ : Graph ℕ ℤ))).1 2 = 2
    ∧ dictGet (collectors_and_debtors (simplify_debt_graph (simplify_debt_graph
        (⟨[(4, 1, 3), (3, 1, 2), (3, 2, 8)]⟩ : Graph ℕ ℤ)))).1 2 = 0 := by
  decide

/-- Counterexample to C4 as stated: the matcher does NOT leave its
inputs unchanged.  After the call with collectors `{5: 4}` and debtors
`{2: 4}`, the caller-visible dict contents are `{5: 8}` and `{2: 0}`,
not the original entries. -/
theorem matcher_mutates_inputs :
    ¬ ((graph_from_collectors_and_debtors [((5:ℕ), (4:ℤ))] [(2, 4)]).2.1 = [(5, 4)]
       ∧ (graph_from_collectors_and_debtors [((5:ℕ), (4:ℤ))] [(2, 4)]).2.2 = [(2, 4)]) := by
  decide

/-! ### Transaction bound -/

lemma length_filter_flip (K : List ι) (hK : K.Nodup) {k0 : ι} (hk0 : k0 ∈ K)
    (po pn : ι → Bool) (hagree : ∀ k ∈ K, k ≠ k0 → pn k = po k)
    (hpo : po k0 = false) (hpn : pn k0 = true) :
    (K.filter pn).length = (K.filter po).length + 1 := by
  induction K with
  | nil => cases hk0
  | cons a t ih =>
    rcases List.nodup_cons.mp hK with ⟨hat, ht⟩
    rcases List.mem_cons.mp hk0 with h | h
    · subst h
      have hfilter : t.filter pn = t.filter po :=
        List.filter_congr (fun k hk => hagree k (List.mem_cons_of_mem _ hk)
          (fun e => hat (by rw [← e]; exact hk)))
      simp [List.filter_cons, hpn, hpo, hfilter]
    · have hne : a ≠ k0 := fun e => hat (by rw [e]; exact h)
      have ha := hagree a (List.mem_cons_self a t) hne
      have iht := ih ht h (fun k hk hkk => hagree k (List.mem_cons_of_mem _ hk) hkk)
      cases hpoa : po a
      · have hpna : pn a = false := by rw [ha, hpoa]
        simp [List.filter_cons, hpoa, hpna, iht]
      · have hpna : pn a = true := by rw [ha, hpoa]
        simp [List.filter_cons, hpoa, hpna, iht]

/-- Number of keys of `K` whose tracked value in `m` has reached zero. -/
def zeroCount (K : List ι) (m : List (ι × R)) : ℕ :=
  (K.filter fun k => dictGet m k = 0).length

/-- C5 (confirmed): Transaction bound.  For valid (strictly positive,
conservation-satisfying) mappings, the emitted graph has at most
`|debtors| + |collectors| - 1` edges, and no edges when both mappings
are empty.  The bound holds although the `+=` slip corrupts the
tracked credits: every emitted edge moves exactly one previously
nonzero tracked balance to zero, and the balance on the other side of
the final emission stays nonzero. -/
theorem transaction_bound (C D : List (ι × R))
    (hCk : (dictKeys C).Nodup) (hDk : (dictKeys D).Nodup)
    (hCpos : ∀ kv ∈ C, 0 < kv.2) (hDpos : ∀ kv ∈ D, 0 < kv.2)
    (hcons : sumValues C = sumValues D) :
    (graph_from_collectors_and_debtors C D).1.edges.length ≤ C.length + D.length - 1
    ∧ (C = [] → D = [] → (graph_from_collectors_and_debtors C D).1.edges = []) := by
  refine ⟨?_, fun hC hD => by rw [hC, hD]; rfl⟩
  have key := foldl_induction settle_step
    (fun s : MatchState ι R =>
      (∀ k, 0 ≤ dictGet s.collectors k) ∧ (∀ k, 0 ≤ dictGet s.debtors k) ∧
      dictKeys s.collectors = dictKeys C ∧ dictKeys s.debtors = dictKeys D ∧
      s.edges.length
        = zeroCount (dictKeys C) s.collectors + zeroCount (dictKeys D) s.debtors ∧
      (s.edges.length ≠ 0 →
        zeroCount (dictKeys C) s.collectors + zeroCount (dictKeys D) s.debtors + 1
          ≤ C.length + D.length))
    (settle_pairs C D) ⟨[], C, D⟩ ?_ ?_
  · obtain ⟨-, -, -, -, hlen, hbound⟩ := key
    have hrw : (graph_from_collectors_and_debtors C D).1.edges
        = ((settle_pairs C D).foldl settle_step ⟨[], C, D⟩).edges := rfl
    rw [hrw, hlen]
    rcases Nat.eq_zero_or_pos
      (((settle_pairs C D).foldl settle_step ⟨[], C, D⟩).edges.length) with h0 | h0
    · rw [hlen] at h0
      omega
    · have := hbound (Nat.pos_iff_ne_zero.mp h0)
      omega
  · -- initial state
    refine ⟨fun k => dictGet_nonneg hCpos k, fun k => dictGet_nonneg hDpos k,
      rfl, rfl, ?_, fun h => absurd rfl h⟩
    have hzc : zeroCount (dictKeys C) C = 0 := by
      unfold zeroCount
      rw [List.length_eq_zero]
      exact List.filter_eq_nil_iff.mpr
        (fun k hk => by simp [ne_of_gt (dictGet_pos hCpos hk)])
    have hzd : zeroCount (dictKeys D) D = 0 := by
      unfold zeroCount
      rw [List.length_eq_zero]
      exact List.filter_eq_nil_iff.mpr
        (fun k hk => by simp [ne_of_gt (dictGet_pos hDpos hk)])
    rw [hzc, hzd]
    rfl
  · -- step preservation
    rintro s ⟨c, d⟩ hcd ⟨hQc, hQd, hkc, hkd, hlen, hbound⟩
    obtain ⟨hcK, hdK⟩ := mem_settle_pairs.mp hcd
    rw [settle_step_eq]
    split_ifs with hg hbr
    · -- credit >= debt branch: the debtor is zeroed, collector credit inflated
      obtain ⟨hcne, hdne⟩ := hg
      have hcpos : 0 < dictGet s.collectors c := lt_of_le_of_ne (hQc c) (Ne.symm hcne)
      have hdpos : 0 < dictGet s.debtors d := lt_of_le_of_ne (hQd d) (Ne.symm hdne)
      have hcmem : c ∈ dictKeys s.collectors := by rw [hkc]; exact hcK
      have hdmem : d ∈ dictKeys s.debtors := by rw [hkd]; exact hdK
      have hgetC : ∀ k,
          dictGet (dictUpdate s.collectors c
              (dictGet s.collectors c + dictGet s.debtors d)) k
            = if k = c then dictGet s.collectors c + dictGet s.debtors d
              else dictGet s.collectors k := by
        intro k
        rw [dictGet_dictUpdate]
        by_cases h : k = c
        · simp [h, hcmem]
        · simp [h]
      have hgetD : ∀ k, dictGet (dictUpdate s.debtors d 0) k
            = if k = d then 0 else dictGet s.debtors k := by
        intro k
        rw [dictGet_dictUpdate]
        by_cases h : k = d
        · simp [h, hdmem]
        · simp [h]
      have hzC : zeroCount (dictKeys C)
            (dictUpdate s.collectors c (dictGet s.collectors c + dictGet s.debtors d))
          = zeroCount (dictKeys C) s.collectors := by
        unfold zeroCount
        congr 1
        apply List.filter_congr
        intro k hk
        rw [decide_eq_decide, hgetC k]
        by_cases h : k = c
        · subst h
          rw [if_pos rfl]
          constructor
          · intro hc0
            exact absurd hc0 (ne_of_gt (add_pos hcpos hdpos))
          · intro hc0
            exact absurd hc0 hcne
        · rw [if_neg h]
      have hzD : zeroCount (dictKeys D) (dictUpdate s.debtors d 0)
          = zeroCount (dictKeys D) s.debtors + 1 := by
        unfold zeroCount
        apply length_filter_flip (dictKeys D) hDk hdK
        · intro k hk hkd2
          rw [decide_eq_decide, hgetD k, if_neg hkd2]
        · simp [hdne]
        · simp [hgetD d]
      refine ⟨?_, ?_, ?_, ?_, ?_, ?_⟩
      · intro k
        rw [hgetC k]
        by_cases h : k = c
        · rw [if_pos h]
          exact le_of_lt (add_pos hcpos hdpos)
        · rw [if_neg h]
          exact hQc k
      · intro k
        rw [hgetD k]
        by_cases h : k = d
        · rw [if_pos h]
        · rw [if_neg h]
          exact hQd k
      · rw [dictKeys_dictUpdate]
        exact hkc
      · rw [dictKeys_dictUpdate]
        exact hkd
      · rw [List.length_append, hlen, hzC, hzD]
        rfl
      · intro _
        have h1 : zeroCount (dictKeys C) s.collectors < (dictKeys C).length := by
          unfold zeroCount
          exact List.length_filter_lt_length_iff_exists.mpr
            ⟨c, hcK, by simp [hcne]⟩
        have h2 : zeroCount (dictKeys D) s.debtors < (dictKeys D).length := by
          unfold zeroCount
          exact List.length_filter_lt_length_iff_exists.mpr
            ⟨d, hdK, by simp [hdne]⟩
        rw [hzC, hzD]
        rw [dictKeys_length] at h1
        rw [dictKeys_length] at h2
        omega
    · -- credit < debt branch: the collector is zeroed, debtor reduced
      obtain ⟨hcne, hdne⟩ := hg
      have hcpos : 0 < dictGet s.collectors c := lt_of_le_of_ne (hQc c) (Ne.symm hcne)
      have hlt : dictGet s.collectors c < dictGet s.debtors d := not_le.mp hbr
      have hcmem : c ∈ dictKeys s.collectors := by rw [hkc]; exact hcK
      have hdmem : d ∈ dictKeys s.debtors := by rw [hkd]; exact hdK
      have hgetC : ∀ k, dictGet (dictUpdate s.collectors c 0) k
            = if k = c then 0 else dictGet s.collectors k := by
        intro k
        rw [dictGet_dictUpdate]
        by_cases h : k = c
        · simp [h, hcmem]
        · simp [h]
      have hgetD : ∀ k,
          dictGet (dictUpdate s.debtors d
              (dictGet s.debtors d - dictGet s.collectors c)) k
            = if k = d then dictGet s.debtors d - dictGet s.collectors c
              else dictGet s.debtors k := by
        intro k
        rw [dictGet_dictUpdate]
        by_cases h : k = d
        · simp [h, hdmem]
        · simp [h]
      have hzC : zeroCount (dictKeys C) (dictUpdate s.collectors c 0)
          = zeroCount (dictKeys C) s.collectors + 1 := by
        unfold zeroCount
        apply length_filter_flip (dictKeys C) hCk hcK
        · intro k hk hkc2
          rw [decide_eq_decide, hgetC k, if_neg hkc2]
        · simp [hcne]
        · simp [hgetC c]
      have hzD : zeroCount (dictKeys D)
            (dictUpdate s.debtors d (dictGet s.debtors d - dictGet s.collectors c))
          = zeroCount (dictKeys D) s.debtors := by
        unfold zeroCount
        congr 1
        apply List.filter_congr
        intro k hk
        rw [decide_eq_decide, hgetD k]
        by_cases h : k = d
        · subst h
          rw [if_pos rfl]
          constructor
          · intro hd0
            exact absurd hd0 (ne_of_gt (sub_pos.mpr hlt))
          · intro hd0
            exact absurd hd0 hdne
        · rw [if_neg h]
      refine ⟨?_, ?_, ?_, ?_, ?_, ?_⟩
      · intro k
        rw [hgetC k]
        by_cases h : k = c
        · rw [if_pos h]
        · rw [if_neg h]
          exact hQc k
      · intro k
        rw [hgetD k]
        by_cases h : k = d
        · rw [if_pos h]
          exact le_of_lt (sub_pos.mpr hlt)
        · rw [if_neg h]
          exact hQd k
      · rw [dictKeys_dictUpdate]
        exact hkc
      · rw [dictKeys_dictUpdate]
        exact hkd
      · rw [List.length_append, hlen, hzC, hzD]
        simp only [List.length_singleton]
        omega
      · intro _
        have h1 : zeroCount (dictKeys C) s.collectors < (dictKeys C).length := by
          unfold zeroCount
          exact List.length_filter_lt_length_iff_exists.mpr
            ⟨c, hcK, by simp [hcne]⟩
        have h2 : zeroCount (dictKeys D) s.debtors < (dictKeys D).length := by
          unfold zeroCount
          exact List.length_filter_lt_length_iff_exists.mpr
            ⟨d, hdK, by simp [hdne]⟩
        rw [hzC, hzD]
        rw [dictKeys_length] at h1
        rw [dictKeys_length] at h2
        omega
    · -- guard false: state unchanged
      exact ⟨hQc, hQd, hkc, hkd, hlen, hbound⟩

/-- Witness for C5 at concrete one-entry mappings. -/
theorem transaction_bound_witness :
    (graph_from_collectors_and_debtors [((3:ℕ), (5:ℤ))] [(4, 5)]).1.edges.length
      ≤ [((3:ℕ), (5:ℤ))].length + [((4:ℕ), (5:ℤ))].length - 1 :=
  (transaction_bound [((3:ℕ), (5:ℤ))] [(4, 5)] (by decide) (by decide)
    (by decide) (by decide) (by decide)).1

/-- C4 amended (corrected): the matcher mutates the caller's mappings
in place rather than working on local copies: whenever both input
mappings are nonempty valid net-position mappings, the caller-visible
contents of the `debtors` dict after the call differ from the entries
passed in (the first visited debtor's balance has strictly
decreased). -/
theorem matcher_works_in_place (C D : List (ι × R))
    (hCk : (dictKeys C).Nodup) (hDk : (dictKeys D).Nodup)
    (hCpos : ∀ kv ∈ C, 0 < kv.2) (hDpos : ∀ kv ∈ D, 0 < kv.2)
    (hC : C ≠ []) (hD : D ≠ []) :
    (graph_from_collectors_and_debtors C D).2.2 ≠ D := by
  obtain ⟨c0, ct, hc0⟩ : ∃ c0 ct, sorted_collector_ids C = c0 :: ct := by
    apply List.exists_cons_of_ne_nil
    intro h
    have hlen := (sorted_collector_ids_perm C).length_eq
    rw [h] at hlen
    simp only [List.length_nil, dictKeys_length] at hlen
    exact hC (List.length_eq_zero.mp hlen.symm)
  obtain ⟨d0, dt, hd0⟩ : ∃ d0 dt, sorted_debtor_ids D = d0 :: dt := by
    apply List.exists_cons_of_ne_nil
    intro h
    have hlen := (sorted_debtor_ids_perm D).length_eq
    rw [h] at hlen
    simp only [List.length_nil, dictKeys_length] at hlen
    exact hD (List.length_eq_zero.mp hlen.symm)
  have hc0K : c0 ∈ dictKeys C :=
    mem_sorted_collector_ids.mp (hc0 ▸ List.mem_cons_self c0 ct)
  have hd0K : d0 ∈ dictKeys D :=
    mem_sorted_debtor_ids.mp (hd0 ▸ List.mem_cons_self d0 dt)
  have hcr : 0 < dictGet C c0 := dictGet_pos hCpos hc0K
  have hdb : 0 < dictGet D d0 := dictGet_pos hDpos hd0K
  obtain ⟨rest, hpairs⟩ : ∃ rest, settle_pairs C D = (c0, d0) :: rest := by
    unfold settle_pairs
    rw [hc0, hd0]
    refine ⟨List.map (fun d => (c0, d)) dt
      ++ ct.flatMap fun c => List.map (fun d => (c, d)) (d0 :: dt), ?_⟩
    simp
  obtain ⟨v, hv0, hvlt, hQ1⟩ :
      ∃ v, 0 ≤ v ∧ v < dictGet D d0 ∧
        ((∀ k, 0 ≤ dictGet (settle_step ⟨[], C, D⟩ (c0, d0)).collectors k) ∧
         (∀ k, 0 ≤ dictGet (settle_step ⟨[], C, D⟩ (c0, d0)).debtors k) ∧
         dictKeys (settle_step ⟨[], C, D⟩ (c0, d0)).debtors = dictKeys D ∧
         dictGet (settle_step ⟨[], C, D⟩ (c0, d0)).debtors d0 ≤ v) := by
    rw [settle_step_eq]
    have hg : dictGet (⟨[], C, D⟩ : MatchState ι R).collectors (c0, d0).1 ≠ 0
        ∧ dictGet (⟨[], C, D⟩ : MatchState ι R).debtors (c0, d0).2 ≠ 0 :=
      ⟨ne_of_gt hcr, ne_of_gt hdb⟩
    rw [if_pos hg]
    split_ifs with hbr
    · refine ⟨0, le_refl 0, hdb, ?_, ?_, ?_, ?_⟩
      · intro k
        rw [dictGet_dictUpdate]
        split_ifs
        · exact le_of_lt (add_pos hcr hdb)
        · exact dictGet_nonneg hCpos k
      · intro k
        rw [dictGet_dictUpdate]
        split_ifs
        · exact le_refl 0
        · exact dictGet_nonneg hDpos k
      · exact dictKeys_dictUpdate D d0 0
      · rw [dictGet_dictUpdate, if_pos ⟨rfl, hd0K⟩]
    · refine ⟨dictGet D d0 - dictGet C c0,
        le_of_lt (sub_pos.mpr (not_le.mp hbr)), sub_lt_self _ hcr, ?_, ?_, ?_, ?_⟩
      · intro k
        rw [dictGet_dictUpdate]
        split_ifs
        · exact le_refl 0
        · exact dictGet_nonneg hCpos k
      · intro k
        rw [dictGet_dictUpdate]
        split_ifs
        · exact le_of_lt (sub_pos.mpr (not_le.mp hbr))
        · exact dictGet_nonneg hDpos k
      · exact dictKeys_dictUpdate D d0 _
      · rw [dictGet_dictUpdate, if_pos ⟨rfl, hd0K⟩]
  have hrw : (graph_from_collectors_and_debtors C D).2.2
      = ((settle_pairs C D).foldl settle_step ⟨[], C, D⟩).debtors := rfl
  rw [hrw, hpairs, List.foldl_cons]
  have hfinal := foldl_induction settle_step
    (fun s : MatchState ι R =>
      (∀ k, 0 ≤ dictGet s.collectors k) ∧ (∀ k, 0 ≤ dictGet s.debtors k) ∧
      dictKeys s.debtors = dictKeys D ∧ dictGet s.debtors d0 ≤ v)
    rest (settle_step ⟨[], C, D⟩ (c0, d0)) hQ1 ?_
  · obtain ⟨-, -, -, hle⟩ := hfinal
    intro hEq
    rw [hEq] at hle
    exact absurd hvlt (not_lt.mpr hle)
  · rintro s cd hcd ⟨h1, h2, h3, h4⟩
    rw [settle_step_eq]
    split_ifs with hg hbr
    · obtain ⟨hcne, hdne⟩ := hg
      have hcpos2 : 0 < dictGet s.collectors cd.1 :=
        lt_of_le_of_ne (h1 cd.1) (Ne.symm hcne)
      have hdpos2 : 0 < dictGet s.debtors cd.2 :=
        lt_of_le_of_ne (h2 cd.2) (Ne.symm hdne)
      refine ⟨?_, ?_, ?_, ?_⟩
      · intro k
        rw [dictGet_dictUpdate]
        split_ifs
        · exact le_of_lt (add_pos hcpos2 hdpos2)
        · exact h1 k
      · intro k
        rw [dictGet_dictUpdate]
        split_ifs
        · exact le_refl 0
        · exact h2 k
      · rw [dictKeys_dictUpdate]
        exact h3
      · rw [dictGet_dictUpdate]
        split_ifs
        · exact hv0
        · exact h4
    · obtain ⟨hcne, hdne⟩ := hg
      have hlt2 : dictGet s.collectors cd.1 < dictGet s.debtors cd.2 := not_le.mp hbr
      refine ⟨?_, ?_, ?_, ?_⟩
      · intro k
        rw [dictGet_dictUpdate]
        split_ifs
        · exact le_refl 0
        · exact h1 k
      · intro k
        rw [dictGet_dictUpdate]
        split_ifs
        · exact le_of_lt (sub_pos.mpr hlt2)
        · exact h2 k
      · rw [dictKeys_dictUpdate]
        exact h3
      · rw [dictGet_dictUpdate]
        split_ifs with h
        · calc dictGet s.debtors cd.2 - dictGet s.collectors cd.1
              ≤ dictGet s.debtors cd.2 := sub_le_self _ (h1 cd.1)
            _ = dictGet s.debtors d0 := by rw [h.1]
            _ ≤ v := h4
        · exact h4
    · exact ⟨h1, h2, h3, h4⟩

/-- Witness for the amended C4 at concrete one-entry mappings. -/
theorem matcher_works_in_place_witness :
    (graph_from_collectors_and_debtors [((3:ℕ), (2:ℤ))] [(7, 2)]).2.2 ≠ [(7, 2)] :=
  matcher_works_in_place [((3:ℕ), (2:ℤ))] [(7, 2)] (by decide) (by decide)
    (by decide) (by decide) (by decide) (by decide)

/-! ### Deterministic identifier-order traversal -/

lemma dictGet_dictUpdate_congr {m₁ m₂ : List (ι × R)}
    (hget : ∀ k, dictGet m₁ k = dictGet m₂ k)
    (hmem : ∀ k, k ∈ dictKeys m₁ ↔ k ∈ dictKeys m₂) (c : ι) (v : R) :
    ∀ k, dictGet (dictUpdate m₁ c v) k = dictGet (dictUpdate m₂ c v) k := by
  intro k
  rw [dictGet_dictUpdate, dictGet_dictUpdate]
  by_cases h : k = c ∧ c ∈ dictKeys m₁
  · rw [if_pos h, if_pos ⟨h.1, (hmem c).mp h.2⟩]
  · rw [if_neg h, if_neg (fun hc => h ⟨hc.1, (hmem c).mpr hc.2⟩), hget k]

/-- C8 (confirmed): the matcher walks collector keys in ascending and
debtor keys in descending identifier order (independently of the
amounts), and its output graph is a deterministic function of the two
mappings: permuting the association lists (dict insertion order) while
keeping the same entries leaves the output graph unchanged. -/
theorem deterministic_matching (C₁ C₂ D₁ D₂ : List (ι × R))
    (hCperm : C₁.Perm C₂) (hDperm : D₁.Perm D₂)
    (hCk : (dictKeys C₁).Nodup) (hDk : (dictKeys D₁).Nodup) :
    (graph_from_collectors_and_debtors C₁ D₁).1
      = (graph_from_collectors_and_debtors C₂ D₂).1
    ∧ (sorted_collector_ids C₁).Sorted (· ≤ ·)
    ∧ (sorted_debtor_ids D₁).Sorted (· ≥ ·)
    ∧ (sorted_collector_ids C₁).Perm (dictKeys C₁)
    ∧ (sorted_debtor_ids D₁).Perm (dictKeys D₁) := by
  have hCkeys : (dictKeys C₁).Perm (dictKeys C₂) := hCperm.map Prod.fst
  have hDkeys : (dictKeys D₁).Perm (dictKeys D₂) := hDperm.map Prod.fst
  have hsortC : sorted_collector_ids C₁ = sorted_collector_ids C₂ :=
    List.eq_of_perm_of_sorted
      ((List.perm_insertionSort _ _).trans
        (hCkeys.trans (List.perm_insertionSort _ _).symm))
      (List.sorted_insertionSort _ _) (List.sorted_insertionSort _ _)
  have hsortDasc : (dictKeys D₁).insertionSort (· ≤ ·)
      = (dictKeys D₂).insertionSort (· ≤ ·) :=
    List.eq_of_perm_of_sorted
      ((List.perm_insertionSort _ _).trans
        (hDkeys.trans (List.perm_insertionSort _ _).symm))
      (List.sorted_insertionSort _ _) (List.sorted_insertionSort _ _)
  have hsortD : sorted_debtor_ids D₁ = sorted_debtor_ids D₂ := by
    unfold sorted_debtor_ids
    rw [hsortDasc]
  refine ⟨?_, List.sorted_insertionSort _ _, ?_, sorted_collector_ids_perm C₁,
    sorted_debtor_ids_perm D₁⟩
  · have hpairs : settle_pairs C₂ D₂ = settle_pairs C₁ D₁ := by
      unfold settle_pairs
      rw [hsortC, hsortD]
    have hrel := foldl_rel settle_step settle_step
      (fun s t : MatchState ι R =>
        s.edges = t.edges
        ∧ (∀ k, dictGet s.collectors k = dictGet t.collectors k)
        ∧ (∀ k, dictGet s.debtors k = dictGet t.debtors k)
        ∧ (∀ k, k ∈ dictKeys s.collectors ↔ k ∈ dictKeys t.collectors)
        ∧ (∀ k, k ∈ dictKeys s.debtors ↔ k ∈ dictKeys t.debtors))
      (settle_pairs C₁ D₁) ⟨[], C₁, D₁⟩ ⟨[], C₂, D₂⟩
      ⟨rfl, fun k => dictGet_perm hCperm hCk k, fun k => dictGet_perm hDperm hDk k,
        fun k => hCkeys.mem_iff, fun k => hDkeys.mem_iff⟩ ?_
    · have h1 : (graph_from_collectors_and_debtors C₁ D₁).1
          = ⟨((settle_pairs C₁ D₁).foldl settle_step ⟨[], C₁, D₁⟩).edges⟩ := rfl
      have h2 : (graph_from_collectors_and_debtors C₂ D₂).1
          = ⟨((settle_pairs C₂ D₂).foldl settle_step ⟨[], C₂, D₂⟩).edges⟩ := rfl
      rw [h1, h2, hpairs, hrel.1]
    · rintro s t cd hcd ⟨h1, h2, h3, h4, h5⟩
      rw [settle_step_eq, settle_step_eq, h2 cd.1, h3 cd.2]
      split_ifs with hg hbr
      · exact ⟨by rw [h1], dictGet_dictUpdate_congr h2 h4 cd.1 _,
          dictGet_dictUpdate_congr h3 h5 cd.2 _,
          fun k => by rw [dictKeys_dictUpdate, dictKeys_dictUpdate]; exact h4 k,
          fun k => by rw [dictKeys_dictUpdate, dictKeys_dictUpdate]; exact h5 k⟩
      · exact ⟨by rw [h1], dictGet_dictUpdate_congr h2 h4 cd.1 _,
          dictGet_dictUpdate_congr h3 h5 cd.2 _,
          fun k => by rw [dictKeys_dictUpdate, dictKeys_dictUpdate]; exact h4 k,
          fun k => by rw [dictKeys_dictUpdate, dictKeys_dictUpdate]; exact h5 k⟩
      · exact ⟨h1, h2, h3, h4, h5⟩
  · unfold sorted_debtor_ids
    rw [List.Sorted, List.pairwise_reverse]
    exact (List.sorted_insertionSort (· ≤ ·) (dictKeys D₁)).imp (fun hab => hab)

/-- Witness for C8: permuting the collectors dict does not change the
output graph. -/
theorem deterministic_matching_witness :
    (graph_from_collectors_and_debtors [((1:ℕ), (3:ℤ)), (2, 5)] [(4, 8)]).1
      = (graph_from_collectors_and_debtors [((2:ℕ), (5:ℤ)), (1, 3)] [(4, 8)]).1 :=
  (deterministic_matching [((1:ℕ), (3:ℤ)), (2, 5)] [(2, 5), (1, 3)]
    [(4, 8)] [(4, 8)] (by decide) (by decide) (by decide) (by decide)).1

/-! ### Ingestion -/

lemma debt_list_to_graph_go_verbatim (nt : Option (List (ι × ι)))
    (hid : ∀ x, translateName nt x = some x) :
    ∀ (l : List (ι × ι × R)) (g : Graph ι R),
      debt_list_to_graph_go nt g l = some ⟨g.edges ++ l⟩ := by
  intro l
  induction l with
  | nil =>
    intro g
    simp [debt_list_to_graph_go]
  | cons r t ih =>
    intro g
    simp only [debt_list_to_graph_go, hid r.1, hid r.2.1]
    rw [ih (g.edge r.1 r.2.1 r.2.2)]
    simp [Graph.edge]

lemma debt_list_to_graph_go_none_iff (nt : List (ι × ι)) (hnt : nt ≠ []) :
    ∀ (l : List (ι × ι × R)) (g : Graph ι R),
      debt_list_to_graph_go (some nt) g l = none
        ↔ ∃ r ∈ l, lookupName nt r.1 = none ∨ lookupName nt r.2.1 = none := by
  intro l
  have htrans : ∀ x, translateName (some nt) x = lookupName nt x := fun x => by
    simp [translateName, hnt]
  induction l with
  | nil =>
    intro g
    simp [debt_list_to_graph_go]
  | cons r t ih =>
    intro g
    cases h1 : lookupName nt r.1 with
    | none => simp [debt_list_to_graph_go, htrans, h1]
    | some a =>
      cases h2 : lookupName nt r.2.1 with
      | none => simp [debt_list_to_graph_go, htrans, h1, h2]
      | some b => simp [debt_list_to_graph_go, htrans, h1, h2, ih]

/-- C10 (confirmed): ingestion alias behavior.  With `None` or an
empty alias dict (both falsy in Python) every identifier is used
verbatim and no record is rejected; with a nonempty alias dict the
function fails exactly when some record's debtor or creditor
identifier is absent from the mapping. -/
theorem ingestion_alias_behavior (dl : List (ι × ι × R)) (nt : List (ι × ι)) :
    debt_list_to_graph dl none = some ⟨dl⟩
    ∧ debt_list_to_graph dl (some []) = some ⟨dl⟩
    ∧ (nt ≠ [] →
        (debt_list_to_graph dl (some nt) = none
          ↔ ∃ r ∈ dl, lookupName nt r.1 = none ∨ lookupName nt r.2.1 = none)) := by
  refine ⟨?_, ?_, fun hnt => ?_⟩
  · have h := debt_list_to_graph_go_verbatim none (fun x => rfl) dl Graph.empty
    simpa [debt_list_to_graph, Graph.empty] using h
  · have h := debt_list_to_graph_go_verbatim (some [])
      (fun x => by simp [translateName]) dl Graph.empty
    simpa [debt_list_to_graph, Graph.empty] using h
  · exact debt_list_to_graph_go_none_iff nt hnt dl Graph.empty

/-- Witness for C10: a nonempty alias dict missing identifier 1
rejects the record (0, 1, 5). -/
theorem ingestion_alias_behavior_witness :
    debt_list_to_graph [((0:ℕ), (1:ℕ), (5:ℤ))] (some [(0, 2)]) = none :=
  ((ingestion_alias_behavior [((0:ℕ), (1:ℕ), (5:ℤ))] [(0, 2)]).2.2 (by decide)).mpr
    ⟨(0, 1, 5), by decide, Or.inr (by decide)⟩

end MutualDebt
